import Mathlib

/-!
A verification development for the query-execution core of the database
repository: the statement executor (`crates/core/src/dbs/executor.rs`),
the iterator pipeline (`crates/core/src/dbs/iterator.rs`), and the
path-based value primitives (`crates/core/src/expr/value/pick.rs`,
`crates/core/src/expr/value/inc.rs`).

The Rust code is shallowly embedded: pure functions become Lean functions,
stateful methods become explicit state passing, side effects on the
transaction handle are recorded as an explicit list of transaction actions,
and fallible code returns `Except`.
-/

/-- The subset of `Error` variants (crates/core/src/err) that the executor
and iterator core distinguishes. -/
inductive ErrE
  | queryNotExecuted
  | queryNotExecutedDetail (message : String)
  | queryCancelled
  | queryTimedout
  | invalidControlFlow
  | singleOnlyOutput
  | invalidStatementTarget (value : String)
  | otherErr (tag : String)
deriving Repr

/-- `QueryType` from `crates/core/src/dbs`. -/
inductive QueryType
  | live
  | kill
  | other
deriving Repr

/-- The recursive tagged `Value` (crates/core/src/expr/value).  Numbers are
modelled as integers (the spec describes the numeric case of `inc` simply as
"replace with numeric sum").  The variants not needed by `pick`/`inc`
traversal are represented by `thing` and the scalar variants; they all fall
into the same non-traversable catch-all branches of the source. -/
inductive ValueM
  | vnone
  | null
  | bool (b : Bool)
  | number (n : Int)
  | str (s : String)
  | array (xs : List ValueM)
  | object (fields : List (String × ValueM))
  | thing (tb : String) (id : String)
deriving Repr

/-- `Part` variants handled by `Value::pick` (crates/core/src/expr/part):
`Field`, `Index`, `All`, `First`, `Last`.  Every other `Part` variant takes
the same catch-all branches in the source match as an unknown part. -/
inductive PartM
  | field (f : String)
  | index (i : Nat)
  | all
  | first
  | last
deriving Repr, DecidableEq

/-- The result of computing a logical plan: `FlowResult<Value>` from
`crates/core/src/expr`, i.e. `Ok(v)` or a `ControlFlow` interruption. -/
inductive FlowRes
  | ok (v : ValueM)
  | retrn (v : ValueM)
  | brk
  | cont
  | err (e : ErrE)
deriving Repr

/-- Operations performed on the open transaction handle, recorded in call
order by the embedded executor functions. -/
inductive TxAction
  | lock
  | cancel
  | completeChanges (merge : Bool)
  | commit
deriving Repr, DecidableEq

/-- Embedding of `Executor::execute_plan_impl`
(crates/core/src/dbs/executor.rs, lines 219-283) after the transaction has
been opened.  Inputs: whether the plan is writeable, the outcome of
`execute_plan_in_transaction`, and the outcomes of the storage calls
`complete_changes(false)` and `commit` (`some msg` = failure with that
storage-layer message).  Output: the statement's result together with the
ordered list of operations performed on the transaction handle. -/
def execute_plan_impl (writeable : Bool) (planRes : FlowRes)
    (ccRes cmRes : Option String) : Except ErrE ValueM × List TxAction :=
  match planRes with
  | .ok v | .retrn v =>
    -- `let mut lock = txn.lock().await`
    if !writeable then
      -- non-writable transactions are cancelled instead of committed
      (.ok v, [.lock, .cancel])
    else
      match ccRes with
      | some e =>
        -- `complete_changes` failed: cancel, then surface the message
        (.error (.queryNotExecutedDetail e), [.lock, .completeChanges false, .cancel])
      | none =>
        match cmRes with
        | some e =>
          -- `commit` failed: surface the message (the source performs no
          -- explicit cancel on this path)
          (.error (.queryNotExecutedDetail e), [.lock, .completeChanges false, .commit])
        | none =>
          (.ok v, [.lock, .completeChanges false, .commit])
  | .cont | .brk => (.error .invalidControlFlow, [])
  | .err e => (.error e, [.cancel])

/-- A query executor obtained from the planner
(`QueryPlanner::get_query_executor`); `is_iterator_condition irf cond`
reports whether the index iterator `irf` already handles the WHERE
condition `cond` (together with any ORDER BY), per the planner contract. -/
structure ExeM where
  is_iterator_condition : Nat → Nat → Bool

/-- The planner interface consumed by `check_set_start_limit`. -/
structure QPM where
  get_query_executor : String → Option ExeM
  is_order : Nat → Bool

/-- The part of `Context` consumed by `check_set_start_limit`. -/
structure CtxM where
  get_query_planner : Option QPM

/-- The `Iterable` producer descriptors
(crates/core/src/dbs/iterator.rs, lines 30-74).  `ThingM` is a record id. -/
structure ThingM where
  tb : String
  id : String
deriving Repr, DecidableEq

/-- Tagged producer descriptor `Iterable`. -/
inductive IterableM
  | value (tag : String)
  | defer (t : ThingM)
  | yld (t : String)
  | thing (t : ThingM)
  | edges (e : String)
  | table (t : String)
  | range (tb : String)
  | mergeable (t : ThingM)
  | relatable (t : ThingM)
  | index (t : String) (irf : Nat)
deriving Repr, DecidableEq

/-- The statement fields consumed by `check_set_start_limit`:
`stm.group().is_some()`, `stm.cond()` (the WHERE condition, abstracted to an
identifier), `stm.order().is_some()`. -/
structure StmtS where
  group : Bool
  cond : Option Nat
  order : Bool

/-- Embedding of `Iterator::check_set_start_limit`
(crates/core/src/dbs/iterator.rs, lines 539-586): decides whether
START/LIMIT may be pushed down to the storage level.  `entries` is the
iterator's ingested iterable list. -/
def check_set_start_limit (entries : List IterableM) (ctx : CtxM) (stm : StmtS) : Bool :=
  -- GROUP BY operations change the result structure and count
  if stm.group then false
  -- multiple iterators require merging records from different sources
  else if entries.length ≠ 1 then false
  else
    match stm.cond with
    | some cond =>
      -- WHERE is only safe when the single index iterator already handles it
      match entries.head? with
      | some (.index t irf) =>
        (match ctx.get_query_planner with
        | some qp =>
          match qp.get_query_executor t with
          | some exe => exe.is_iterator_condition irf cond
          | none => false
        | none => false)
      | _ => false
    | none =>
      -- without ORDER BY the natural storage order is acceptable
      if !stm.order then true
      else
        -- with ORDER BY, only a sorted index matching the ORDER BY is safe
        match entries.head? with
        | some (.index _ irf) =>
          (match ctx.get_query_planner with
          | some qp => qp.is_order irf
          | none => false)
        | _ => false

/-- The `Iterator` struct state (crates/core/src/dbs/iterator.rs,
lines 105-125).  The `run : Canceller` handle is modelled by an abstract
shared token identifier.  `results` is the output buffer (the `Memory`
shape of `Results`). -/
structure IteratorSt where
  run : Nat
  limit : Option Nat
  start : Option Nat
  start_skip : Option Nat
  error : Option ErrE
  results : List ValueM
  entries : List IterableM
  guaranteed : Option IterableM
  cancel_on_limit : Option Nat
deriving Repr

/-- Embedding of `impl Clone for Iterator`
(crates/core/src/dbs/iterator.rs, lines 127-141). -/
def cloneIterator (it : IteratorSt) : IteratorSt :=
  { run := it.run
    limit := it.limit
    start := it.start
    start_skip := it.start_skip.map (fun _ => it.start.getD 0)
    error := none
    results := []
    entries := it.entries
    guaranteed := none
    cancel_on_limit := none }

/-- `Iterator::is_limit_one_or_zero`
(crates/core/src/dbs/iterator.rs, lines 463-466). -/
def is_limit_one_or_zero (it : IteratorSt) : Bool :=
  (it.limit.map (fun v => decide (v ≤ 1))).getD false

/-- `GrantedPermission` from the planner interface. -/
inductive GrantedPermission
  | nonePerm
  | specific
  | full
deriving Repr, DecidableEq

/-- The statement facets consumed by the iterator preparation functions:
`is_only`, `is_deferable`, `is_guaranteed`, `is_select`, `is_create`. -/
structure StmCtx where
  is_only : Bool
  is_deferable : Bool
  is_guaranteed : Bool
  is_select : Bool
  is_create : Bool

/-- The planner interface consumed by preparation:
`check_table_permission` and `add_iterables` (which appends one or more
iterables chosen by the planner for a table scan). -/
structure PlannerP where
  check_table_permission : String → GrantedPermission
  add_iterables : String → GrantedPermission → List IterableM

/-- Statement target values dispatched by `Iterator::prepare`
(crates/core/src/dbs/iterator.rs, lines 155-179).  A `Mock` is a finite
generator of record ids; `obj` carries the optional id field (`v.rid()`);
`plain` stands for any other `Value`. -/
inductive TargetV
  | mock (m : List ThingM)
  | table (t : String)
  | edges (e : String)
  | obj (rid : Option ThingM)
  | thingT (t : ThingM)
  | arr (xs : List TargetV)
  | plain (tag : String)

/-- Appends one iterable (`Iterator::ingest`). -/
def ingest (it : IteratorSt) (v : IterableM) : IteratorSt :=
  { it with entries := it.entries ++ [v] }

/-- Embedding of `Iterator::prepare_mock`
(crates/core/src/dbs/iterator.rs, lines 233-248); the per-100 cancellation
check is modelled for an uncancelled context. -/
def prepare_mock (stc : StmCtx) (it : IteratorSt) (m : List ThingM) :
    Except ErrE IteratorSt :=
  if stc.is_only && !is_limit_one_or_zero it then .error .singleOnlyOutput
  else
    .ok { it with
          entries := it.entries ++ m.map (fun v =>
            if stc.is_deferable then IterableM.defer v else IterableM.thing v) }

/-- Embedding of `Iterator::prepare_edges`
(crates/core/src/dbs/iterator.rs, lines 251-264). -/
def prepare_edges (stc : StmCtx) (it : IteratorSt) (e : String) :
    Except ErrE IteratorSt :=
  if stc.is_only && !is_limit_one_or_zero it then .error .singleOnlyOutput
  else if stc.is_create then .error (.invalidStatementTarget e)
  else .ok (ingest it (.edges e))

/-- Embedding of `Iterator::prepare_table`
(crates/core/src/dbs/iterator.rs, lines 182-207). -/
def prepare_table (pl : PlannerP) (stc : StmCtx) (it : IteratorSt) (t : String) :
    Except ErrE IteratorSt :=
  match pl.check_table_permission t with
  | .nonePerm => .ok it
  | p =>
    if stc.is_deferable then .ok (ingest it (.yld t))
    else if !stc.is_guaranteed then
      .ok { it with entries := it.entries ++ pl.add_iterables t p }
    else
      .ok { it with
            guaranteed := some (.yld t)
            entries := it.entries ++ pl.add_iterables t p }

/-- Embedding of `Iterator::prepare_thing`
(crates/core/src/dbs/iterator.rs, lines 210-230) for a non-range record id
(range ids branch into `prepare_range`, whose record-strategy evaluation is
out of scope for the claims). -/
def prepare_thing (pl : PlannerP) (stc : StmCtx) (it : IteratorSt) (t : ThingM) :
    Except ErrE IteratorSt :=
  match pl.check_table_permission t.tb with
  | .nonePerm => .ok it
  | _ =>
    if stc.is_deferable then .ok (ingest it (.defer t))
    else .ok (ingest it (.thing t))

/-- Embedding of `Iterator::prepare_object`
(crates/core/src/dbs/iterator.rs, lines 297-314). -/
def prepare_object (stc : StmCtx) (it : IteratorSt) (rid : Option ThingM) :
    Except ErrE IteratorSt :=
  match rid with
  | some v =>
    if stc.is_deferable then .ok (ingest it (.defer v))
    else .ok (ingest it (.thing v))
  | none => .error (.invalidStatementTarget "object")

/-- Embedding of the element dispatch of `Iterator::prepare_array`
(crates/core/src/dbs/iterator.rs, lines 326-340). -/
def prepare_array_elem (pl : PlannerP) (stc : StmCtx) (it : IteratorSt) :
    TargetV → Except ErrE IteratorSt
  | .mock m => prepare_mock stc it m
  | .table t => prepare_table pl stc it t
  | .edges e => prepare_edges stc it e
  | .obj rid =>
    if !stc.is_select then prepare_object stc it rid
    else if stc.is_select then .ok (ingest it (.value "object"))
    else .error (.invalidStatementTarget "object")
  | .thingT t => prepare_thing pl stc it t
  | v =>
    if stc.is_select then .ok (ingest it (.value "value"))
    else .error (.invalidStatementTarget (match v with
      | .arr _ => "array"
      | .plain tag => tag
      | _ => "value"))

/-- Embedding of `Iterator::prepare_array`
(crates/core/src/dbs/iterator.rs, lines 317-343). -/
def prepare_array (pl : PlannerP) (stc : StmCtx) (it : IteratorSt)
    (xs : List TargetV) : Except ErrE IteratorSt :=
  if stc.is_only && !is_limit_one_or_zero it then .error .singleOnlyOutput
  else
    xs.foldlM (fun acc v => prepare_array_elem pl stc acc v) it

/-- Embedding of the dispatch in `Iterator::prepare`
(crates/core/src/dbs/iterator.rs, lines 155-179). -/
def prepare (pl : PlannerP) (stc : StmCtx) (it : IteratorSt) :
    TargetV → Except ErrE IteratorSt
  | .mock m => prepare_mock stc it m
  | .table t => prepare_table pl stc it t
  | .edges e => prepare_edges stc it e
  | .obj rid =>
    if !stc.is_select then prepare_object stc it rid
    else .ok (ingest it (.value "object"))
  | .arr xs => prepare_array pl stc it xs
  | .thingT t => prepare_thing pl stc it t
  | .plain tag =>
    if stc.is_select then .ok (ingest it (.value tag))
    else .error (.invalidStatementTarget tag)

/-- The incoming per-record outcome handled by `Iterator::result`:
`Result<Value, IgnoreError>` from the document processor. -/
inductive ResIn
  | ignore
  | errRec (e : ErrE)
  | okRec (v : ValueM)
deriving Repr

/-- The run-transient state touched by `Iterator::result`: the results
buffer, the recorded first error, and whether the `Canceller` has been
triggered. -/
structure RunSt where
  results : List ValueM
  error : Option ErrE
  cancelled : Bool
deriving Repr

/-- Embedding of `Iterator::result`
(crates/core/src/dbs/iterator.rs, lines 777-812): ignore drops silently,
the first error is recorded and cancels the run, an accepted value is
appended and the run is cancelled when the buffer length reaches
`cancel_on_limit`. -/
def resultStep (cancel_on_limit : Option Nat) (st : RunSt) (res : ResIn) : RunSt :=
  match res with
  | .ignore => st
  | .errRec e => { st with error := some e, cancelled := true }
  | .okRec v =>
    let st' : RunSt := { st with results := st.results ++ [v] }
    match cancel_on_limit with
    | some l => if st'.results.length = l then { st' with cancelled := true } else st'
    | none => st'

/-- Modelled from the spec: the per-iterable record-driving loop
(`Iterable::iterate`, in `crates/core/src/dbs/processor.rs`, which is not
under src/).  Per §4.2/§5 it feeds each produced record result to
`Iterator::result` and honours cancellation between records, so once the
`Canceller` has been triggered no further record is delivered. -/
def runResults (cancel_on_limit : Option Nat) (st : RunSt) :
    List ResIn → RunSt
  | [] => st
  | r :: rs =>
    if st.cancelled then st
    else runResults cancel_on_limit (resultStep cancel_on_limit st r) rs

/-- Embedding of `Iterator::compute_start_limit`
(crates/core/src/dbs/iterator.rs, lines 588-606), returning the
`cancel_on_limit` and `start_skip` values it sets. -/
def compute_start_limit (entries : List IterableM) (ctx : CtxM) (stm : StmtS)
    (limit start : Option Nat) (is_specific_permission : Bool) :
    Option Nat × Option Nat :=
  if check_set_start_limit entries ctx stm then
    let cancel := limit
    let skip :=
      if !is_specific_permission then
        let s := start.getD 0
        if s > 0 then some s else none
      else none
    (cancel, skip)
  else (none, none)

/-- Modelled from the spec: `Results::start_limit`
(`crates/core/src/dbs/result.rs`, not under src/).  Per §4.2 step 4 it
applies START and LIMIT post-hoc, "respecting `start_skip` already consumed
at storage level": the remaining skip counter replaces the START offset when
storage-level skipping was active. -/
def results_start_limit (start_skip start limit : Option Nat)
    (xs : List ValueM) : List ValueM :=
  let skip := match start_skip with
    | some remaining => remaining
    | none => start.getD 0
  let ys := xs.drop skip
  match limit with
  | some l => ys.take l
  | none => ys

/-- The accepted-record run of one iteration pass: every stored record is
delivered in storage order as an accepted `Ok` result (the push-down cases
guarantee that any WHERE filtering and ordering are already encoded in the
record stream). -/
def runAccepted (cancel_on_limit : Option Nat) (records : List ValueM) :
    List ValueM :=
  (runResults cancel_on_limit ⟨[], none, false⟩ (records.map ResIn.okRec)).results

/-- The pipeline with storage-level push-down in effect: `start_skip`
records are consumed at the storage level (`Iterator::skippable` /
`Iterator::skipped`), iteration is cancelled at `cancel_on_limit`, and
`Results::start_limit` runs post-hoc on the buffer with the remaining skip
counter. -/
def pipelineWithPushdown (records : List ValueM) (start limit : Option Nat) :
    List ValueM :=
  let s := start.getD 0
  let start_skip : Option Nat := if s > 0 then some s else none
  match start_skip with
  | some sk =>
    let consumed := min sk records.length
    let remaining := sk - consumed
    let buffer := runAccepted limit (records.drop sk)
    results_start_limit (some remaining) start limit buffer
  | none =>
    let buffer := runAccepted limit records
    results_start_limit none start limit buffer

/-- The pipeline without push-down: the buffer holds every record and
START/LIMIT are applied only post-hoc by `Results::start_limit`. -/
def pipelineNoPushdown (records : List ValueM) (start limit : Option Nat) :
    List ValueM :=
  results_start_limit none start limit (runAccepted none records)

/-- A statement inside a transaction block, labelled with the outcome its
execution would have.  `option` carries the outcome of
`execute_option_statement`; `output` is a RETURN-producing statement
(`Statement::Output`); `other` is any other data statement, carrying its
`execute_plan_in_transaction` outcome. -/
inductive StmtE
  | begin
  | cancel
  | commit
  | option (res : Option ErrE)
  | use
  | output (res : FlowRes)
  | other (res : FlowRes)
deriving Repr

/-- `matches!(stmt, Statement::Cancel(_) | Statement::Commit(_))`. -/
def isCancelOrCommit : StmtE → Bool
  | .cancel | .commit => true
  | _ => false

/-- A `Response` (time elapsed omitted): the statement result and the
query-kind tag. -/
structure Resp where
  result : Except ErrE ValueM
  queryType : QueryType
deriving Repr

/-- The `QueryNotExecuted` response pushed while fast-forwarding a poisoned
block. -/
def neResp : Resp := ⟨.error .queryNotExecuted, .other⟩

/-- The fast-forward loop after a block is poisoned: every statement up to
(and excluding) the next CANCEL or COMMIT produces a `QueryNotExecuted`
response without being executed. -/
def fastForwardNE : List StmtE → List Resp
  | [] => []
  | s :: ss => if isCancelOrCommit s then [] else neResp :: fastForwardNE ss

/-- Embedding of the statement loop of `Executor::execute_begin_statement`
(crates/core/src/dbs/executor.rs, lines 324-572) after the write
transaction has been opened successfully, for a run in which `ctx.done`
never trips and the stream yields no parse errors.  `cc`/`cm` are the
outcomes of `complete_changes(false)`/`commit` at a COMMIT statement
(`some msg` = failure).  `startRes` are the responses pushed before the
block (`results[..start_results]`), `acc` the block's responses so far
(`results[start_results..]`), and `skip` is `skip_remaining`.  Returns the
final results vector and the operations performed on the transaction
handle. -/
def beginLoop (cc cm : Option String) (startRes acc : List Resp)
    (skip : Bool) : List StmtE → List Resp × List TxAction
  | [] =>
    -- stream exhausted with an open transaction: treat as CANCEL
    (startRes ++ acc.map (fun _ =>
        ⟨.error (.queryNotExecutedDetail "Missing COMMIT statement"), .other⟩),
      [.cancel])
  | s :: ss =>
    if skip && !isCancelOrCommit s then beginLoop cc cm startRes acc skip ss
    else
      match s with
      | .begin =>
        -- nested BEGIN: cancel, back-fill the block, push the detail error,
        -- fast-forward to CANCEL/COMMIT
        (startRes ++ acc.map (fun _ => neResp)
            ++ [⟨.error (.queryNotExecutedDetail
                  "Tried to start a transaction while another transaction was open"),
                .other⟩]
            ++ fastForwardNE ss,
          [.cancel])
      | .cancel =>
        (startRes ++ acc.map (fun _ => ⟨.error .queryCancelled, .other⟩),
          [.cancel])
      | .commit =>
        match cc with
        | some e =>
          (startRes ++ acc.map (fun _ =>
              ⟨.error (.queryNotExecutedDetail e), .other⟩),
            [.lock, .completeChanges false, .cancel])
        | none =>
          match cm with
          | some e =>
            (startRes ++ acc.map (fun _ =>
                ⟨.error (.queryNotExecutedDetail e), .other⟩),
              [.lock, .completeChanges false, .commit])
          | none =>
            (startRes ++ acc, [.lock, .completeChanges false, .commit])
      | .option r =>
        match r with
        | none => beginLoop cc cm startRes acc skip ss
        | some e => beginLoop cc cm startRes (acc ++ [⟨.error e, .other⟩]) skip ss
      | .use =>
        beginLoop cc cm startRes (acc ++ [⟨.ok .vnone, .other⟩]) skip ss
      | .output r =>
        -- `skip_remaining = matches!(stmt, Statement::Output(_))` is true
        (match r with
        | .ok v =>
          -- a successful RETURN truncates the block's results
          beginLoop cc cm startRes [⟨.ok v, .other⟩] true ss
        | .retrn v =>
          beginLoop cc cm startRes [⟨.ok v, .other⟩] true ss
        | .brk | .cont =>
          beginLoop cc cm startRes [⟨.error .invalidControlFlow, .other⟩] true ss
        | .err e =>
          (startRes ++ acc.map (fun _ => neResp) ++ [⟨.error e, .other⟩]
              ++ fastForwardNE ss,
            [.cancel]))
      | .other r =>
        match r with
        | .ok v => beginLoop cc cm startRes (acc ++ [⟨.ok v, .other⟩]) false ss
        | .retrn v =>
          -- `ControlFlow::Return`: set skip_remaining, truncate, push
          beginLoop cc cm startRes [⟨.ok v, .other⟩] true ss
        | .brk | .cont =>
          beginLoop cc cm startRes
            (acc ++ [⟨.error .invalidControlFlow, .other⟩]) false ss
        | .err e =>
          -- first data-statement error: back-fill, push the error, cancel,
          -- fast-forward
          (startRes ++ acc.map (fun _ => neResp) ++ [⟨.error e, .other⟩]
              ++ fastForwardNE ss,
            [.cancel])

/-- Object field lookup (`v.get(f)` on the object's map, which the source
reads in declaration order). -/
def olookup : List (String × ValueM) → String → Option ValueM
  | [], _ => none
  | (k, v) :: fs, f => if k = f then some v else olookup fs f

theorem sizeOf_olookup {fs : List (String × ValueM)} {f : String} {v : ValueM}
    (h : olookup fs f = some v) : sizeOf v < sizeOf fs := by
  induction fs with
  | nil => simp [olookup] at h
  | cons kv fs ih =>
    obtain ⟨k, w⟩ := kv
    by_cases hk : k = f
    · simp only [olookup, hk, if_pos] at h
      cases h
      simp only [List.cons.sizeOf_spec, Prod.mk.sizeOf_spec]
      omega
    · simp only [olookup, hk, if_neg, ite_false] at h
      have := ih h
      simp only [List.cons.sizeOf_spec]
      omega

theorem mem_of_head?M {xs : List ValueM} {v : ValueM}
    (h : xs.head? = some v) : v ∈ xs := by
  cases xs with
  | nil => simp at h
  | cons x xs =>
    simp only [List.head?] at h
    cases h
    exact List.mem_cons_self _ _

theorem mem_of_getLast?M {xs : List ValueM} {v : ValueM}
    (h : xs.getLast? = some v) : v ∈ xs := by
  induction xs with
  | nil => simp at h
  | cons x xs ih =>
    cases xs with
    | nil =>
      simp only [List.getLast?_singleton] at h
      cases h
      exact List.mem_cons_self _ _
    | cons y ys =>
      rw [List.getLast?_cons_cons] at h
      exact List.mem_cons_of_mem x (ih h)

theorem mem_of_get?M {xs : List ValueM} {i : Nat} {v : ValueM}
    (h : xs.get? i = some v) : v ∈ xs := by
  induction xs generalizing i with
  | nil => simp at h
  | cons x xs ih =>
    cases i with
    | zero =>
      simp only [List.get?] at h
      cases h
      exact List.mem_cons_self _ _
    | succ n =>
      simp only [List.get?] at h
      exact List.mem_cons_of_mem x (ih h)

theorem sizeOf_mem_head? {xs : List ValueM} {v : ValueM}
    (h : xs.head? = some v) : sizeOf v < sizeOf xs :=
  List.sizeOf_lt_of_mem (mem_of_head?M h)

theorem sizeOf_mem_getLast? {xs : List ValueM} {v : ValueM}
    (h : xs.getLast? = some v) : sizeOf v < sizeOf xs :=
  List.sizeOf_lt_of_mem (mem_of_getLast?M h)

theorem sizeOf_mem_get? {xs : List ValueM} {i : Nat} {v : ValueM}
    (h : xs.get? i = some v) : sizeOf v < sizeOf xs :=
  List.sizeOf_lt_of_mem (mem_of_get?M h)

mutual

/-- Embedding of `Value::pick` (crates/core/src/expr/value/pick.rs,
lines 5-50): total, pure path-based read.  Objects are descended by
`Field`/`Index` (the numeric index keys the object map by its decimal
string) and mapped by `All`; arrays by `All`/`First`/`Last`/`Index`, with
every other part mapped element-wise over the array while keeping the same
path; every other value is not traversable and yields `None`. -/
def pick : ValueM → List PartM → ValueM
  | v, [] => v
  | .object fs, .field f :: ps =>
    (match h : olookup fs f with
      | some v => pick v ps
      | none => .vnone)
  | .object fs, .index i :: ps =>
    (match h : olookup fs (toString i) with
      | some v => pick v ps
      | none => .vnone)
  | .object fs, .all :: ps => .array (pickObjAll fs ps)
  | .object _, .first :: _ => .vnone
  | .object _, .last :: _ => .vnone
  | .array xs, .all :: ps => .array (pickVals xs ps)
  | .array xs, .first :: ps =>
    (match h : xs.head? with
      | some v => pick v ps
      | none => .vnone)
  | .array xs, .last :: ps =>
    (match h : xs.getLast? with
      | some v => pick v ps
      | none => .vnone)
  | .array xs, .index i :: ps =>
    (match h : xs.get? i with
      | some v => pick v ps
      | none => .vnone)
  | .array xs, .field f :: ps => .array (pickVals2 xs (.field f :: ps))
  | .vnone, _ :: _ => .vnone
  | .null, _ :: _ => .vnone
  | .bool _, _ :: _ => .vnone
  | .number _, _ :: _ => .vnone
  | .str _, _ :: _ => .vnone
  | .thing _ _, _ :: _ => .vnone
termination_by v _ => sizeOf v
decreasing_by
  all_goals simp_wf
  all_goals first
    | exact Nat.lt_of_lt_of_le (sizeOf_olookup (by assumption)) (Nat.le_add_left _ 1)
    | exact Nat.lt_of_lt_of_le (sizeOf_mem_head? (by assumption)) (Nat.le_add_left _ 1)
    | exact Nat.lt_of_lt_of_le (sizeOf_mem_getLast? (by assumption)) (Nat.le_add_left _ 1)
    | exact Nat.lt_of_lt_of_le (sizeOf_mem_get? (by assumption)) (Nat.le_add_left _ 1)
    | omega

/-- `All` under an object: collect `pick` of each field value, in
declaration order. -/
def pickObjAll : List (String × ValueM) → List PartM → List ValueM
  | [], _ => []
  | (_, v) :: fs, ps => pick v ps :: pickObjAll fs ps
termination_by fs _ => sizeOf fs
decreasing_by
  all_goals simp_wf
  all_goals first
    | exact Nat.lt_of_lt_of_le (sizeOf_olookup (by assumption)) (Nat.le_add_left _ 1)
    | exact Nat.lt_of_lt_of_le (sizeOf_mem_head? (by assumption)) (Nat.le_add_left _ 1)
    | exact Nat.lt_of_lt_of_le (sizeOf_mem_getLast? (by assumption)) (Nat.le_add_left _ 1)
    | exact Nat.lt_of_lt_of_le (sizeOf_mem_get? (by assumption)) (Nat.le_add_left _ 1)
    | omega

/-- `All` under an array: map `pick` with the rest of the path. -/
def pickVals : List ValueM → List PartM → List ValueM
  | [], _ => []
  | x :: xs, ps => pick x ps :: pickVals xs ps
termination_by xs _ => sizeOf xs
decreasing_by
  all_goals simp_wf
  all_goals first
    | exact Nat.lt_of_lt_of_le (sizeOf_olookup (by assumption)) (Nat.le_add_left _ 1)
    | exact Nat.lt_of_lt_of_le (sizeOf_mem_head? (by assumption)) (Nat.le_add_left _ 1)
    | exact Nat.lt_of_lt_of_le (sizeOf_mem_getLast? (by assumption)) (Nat.le_add_left _ 1)
    | exact Nat.lt_of_lt_of_le (sizeOf_mem_get? (by assumption)) (Nat.le_add_left _ 1)
    | omega

/-- The array catch-all: map `pick` with the same (entire) path. -/
def pickVals2 : List ValueM → List PartM → List ValueM
  | [], _ => []
  | x :: xs, ps => pick x ps :: pickVals2 xs ps
termination_by xs _ => sizeOf xs
decreasing_by
  all_goals simp_wf
  all_goals first
    | exact Nat.lt_of_lt_of_le (sizeOf_olookup (by assumption)) (Nat.le_add_left _ 1)
    | exact Nat.lt_of_lt_of_le (sizeOf_mem_head? (by assumption)) (Nat.le_add_left _ 1)
    | exact Nat.lt_of_lt_of_le (sizeOf_mem_getLast? (by assumption)) (Nat.le_add_left _ 1)
    | exact Nat.lt_of_lt_of_le (sizeOf_mem_get? (by assumption)) (Nat.le_add_left _ 1)
    | omega

end

/-- Modelled from the spec: the subtree `Value::put` builds below a missing
object key ("creating missing object keys is handled consistently", §3):
a chain of fresh single-field objects along the remaining path, ending in
the stored value; parts that cannot create a container produce `None`. -/
def mkPath : List PartM → ValueM → ValueM
  | [], val => val
  | .field f :: ps, val => .object [(f, mkPath ps val)]
  | .index i :: ps, val => .object [(toString i, mkPath ps val)]
  | _ :: _, _ => .vnone

/-- Replace the value stored at key `f`, or append the freshly created
subtree when the key is missing. -/
def oupdObj (fs : List (String × ValueM)) (f : String) (w : ValueM) :
    List (String × ValueM) :=
  match fs with
  | [] => [(f, w)]
  | (k, v) :: fs => if k = f then (k, w) :: fs else (k, v) :: oupdObj fs f w

mutual

/-- Modelled from the spec: `Value::put`
(`crates/core/src/expr/value/put.rs`, not under src/).  Per §3/§4.1 it is
the path-based store that `pick` and `inc` rely on: it descends the same
way `pick` does (objects by `Field`/`Index` with the index keying the map
by its decimal string, arrays by `Index`/`First`/`Last`/`All`, other parts
mapped element-wise over arrays with the same path), replaces the value at
the path, creates missing object keys, and leaves non-traversable values
unchanged. -/
def put : ValueM → List PartM → ValueM → ValueM
  | _, [], val => val
  | .object fs, .field f :: ps, val => .object (putObj fs f ps val)
  | .object fs, .index i :: ps, val => .object (putObj fs (toString i) ps val)
  | .object fs, .all :: ps, val => .object (putObjAll fs ps val)
  | .object fs, .first :: _, _ => .object fs
  | .object fs, .last :: _, _ => .object fs
  | .array xs, .all :: ps, val => .array (putAll xs ps val)
  | .array xs, .first :: ps, val => .array (putFirst xs ps val)
  | .array xs, .last :: ps, val => .array (putLast xs ps val)
  | .array xs, .index i :: ps, val => .array (putNth xs i ps val)
  | .array xs, .field f :: ps, val => .array (putAll2 xs (.field f :: ps) val)
  | .vnone, p :: ps, val => mkPath (p :: ps) val
  | v, _ :: _, _ => v
termination_by v _ _ => sizeOf v
decreasing_by
  all_goals simp_wf
  all_goals omega

/-- Store through an object field, creating the key when missing. -/
def putObj (fs : List (String × ValueM)) (f : String) (ps : List PartM)
    (val : ValueM) : List (String × ValueM) :=
  match fs with
  | [] => [(f, mkPath ps val)]
  | (k, v) :: fs =>
    if k = f then (k, put v ps val) :: fs
    else (k, v) :: putObj fs f ps val
termination_by sizeOf fs
decreasing_by
  all_goals simp_wf
  all_goals omega

/-- `All` under an object: store through every field value. -/
def putObjAll (fs : List (String × ValueM)) (ps : List PartM) (val : ValueM) :
    List (String × ValueM) :=
  match fs with
  | [] => []
  | (k, v) :: fs => (k, put v ps val) :: putObjAll fs ps val
termination_by sizeOf fs
decreasing_by
  all_goals simp_wf
  all_goals omega

/-- `All` under an array: store through every element. -/
def putAll (xs : List ValueM) (ps : List PartM) (val : ValueM) : List ValueM :=
  match xs with
  | [] => []
  | x :: xs => put x ps val :: putAll xs ps val
termination_by sizeOf xs
decreasing_by
  all_goals simp_wf
  all_goals omega

/-- The array catch-all: store through every element with the same path. -/
def putAll2 (xs : List ValueM) (ps : List PartM) (val : ValueM) : List ValueM :=
  match xs with
  | [] => []
  | x :: xs => put x ps val :: putAll2 xs ps val
termination_by sizeOf xs
decreasing_by
  all_goals simp_wf
  all_goals omega

/-- Store through the element at position `i` (out-of-range leaves the
array unchanged). -/
def putNth (xs : List ValueM) (i : Nat) (ps : List PartM) (val : ValueM) :
    List ValueM :=
  match xs, i with
  | [], _ => []
  | x :: xs, 0 => put x ps val :: xs
  | x :: xs, n + 1 => x :: putNth xs n ps val
termination_by sizeOf xs
decreasing_by
  all_goals simp_wf
  all_goals omega

/-- Store through the first element. -/
def putFirst (xs : List ValueM) (ps : List PartM) (val : ValueM) : List ValueM :=
  match xs with
  | [] => []
  | x :: xs => put x ps val :: xs
termination_by sizeOf xs
decreasing_by
  all_goals simp_wf
  all_goals omega

/-- Store through the last element. -/
def putLast (xs : List ValueM) (ps : List PartM) (val : ValueM) : List ValueM :=
  match xs with
  | [] => []
  | [x] => [put x ps val]
  | x :: y :: xs => x :: putLast (y :: xs) ps val
termination_by sizeOf xs
decreasing_by
  all_goals simp_wf
  all_goals omega

end

/-- Embedding of `Value::inc` (crates/core/src/expr/value/inc.rs,
lines 5-26): inspect the current value at the path with `pick`, then store
the updated value with `put`.  Numbers add, arrays concatenate or append,
`None` is replaced by the number, the array, or a fresh singleton array,
and every other current value is a no-op. -/
def inc (self : ValueM) (path : List PartM) (val : ValueM) : ValueM :=
  match pick self path with
  | .number v =>
    match val with
    | .number x => put self path (.number (v + x))
    | _ => self
  | .array v =>
    match val with
    | .array x => put self path (.array (v ++ x))
    | x => put self path (.array (v ++ [x]))
  | .vnone =>
    match val with
    | .number x => put self path (.number (0 + x))
    | .array x => put self path (.array x)
    | x => put self path (.array [x])
  | _ => self

/-- Helper: `pick` on the empty path returns the value itself (the clone of
`self` in the source). -/
theorem pick_nil (v : ValueM) : pick v [] = v := by
  cases v <;> simp [pick]

/-- Helper: `put` on the empty path replaces the whole value. -/
theorem put_nil (v w : ValueM) : put v [] w = w := by
  cases v <;> simp [put]

/-- C1, counterexample.  The claim states that on failure of either
`complete_changes(false)` or `commit` the transaction is cancelled.  At the
concrete input (writable plan computing `Ok(None)`, `complete_changes`
succeeding, `commit` failing with message "commit failed") the source
surfaces `QueryNotExecutedDetail` but performs no cancel on the
transaction handle. -/
theorem c1_commit_failure_no_cancel :
    (execute_plan_impl true (.ok .vnone) none (some "commit failed")).1
        = .error (.queryNotExecutedDetail "commit failed")
    ∧ TxAction.cancel ∉ (execute_plan_impl true (.ok .vnone) none (some "commit failed")).2 := by
  constructor
  · rfl
  · decide

/-- C1, amended.  In `execute_plan_impl`, when the plan evaluates to
`Ok(v)` or `Return(v)`: if the transaction is read-only it is cancelled and
`v` is returned; if the transaction is writable, `complete_changes(false)`
is called and then `commit`; on failure of `complete_changes` the
transaction is cancelled and the result is `QueryNotExecutedDetail` with
the storage message; on failure of `commit` the result is
`QueryNotExecutedDetail` with the storage message but no cancel is issued;
on success `v` is returned. -/
theorem c1_execute_plan_impl_ok_return (writeable : Bool) (v : ValueM)
    (cc cm : Option String) (planRes : FlowRes)
    (hp : planRes = .ok v ∨ planRes = .retrn v) :
    (writeable = false →
      execute_plan_impl writeable planRes cc cm = (.ok v, [.lock, .cancel]))
    ∧ (∀ e, writeable = true → cc = some e →
      execute_plan_impl writeable planRes cc cm
        = (.error (.queryNotExecutedDetail e),
           [.lock, .completeChanges false, .cancel]))
    ∧ (∀ e, writeable = true → cc = none → cm = some e →
      execute_plan_impl writeable planRes cc cm
        = (.error (.queryNotExecutedDetail e),
           [.lock, .completeChanges false, .commit])
      ∧ TxAction.cancel ∉ (execute_plan_impl writeable planRes cc cm).2)
    ∧ (writeable = true → cc = none → cm = none →
      execute_plan_impl writeable planRes cc cm
        = (.ok v, [.lock, .completeChanges false, .commit])) := by
  refine ⟨?_, ?_, ?_, ?_⟩
  · intro hw
    rcases hp with h | h <;> subst h <;> subst hw <;> rfl
  · intro e hw hcc
    rcases hp with h | h <;> subst h <;> subst hw <;> subst hcc <;> rfl
  · intro e hw hcc hcm
    rcases hp with h | h <;> subst h <;> subst hw <;> subst hcc <;> subst hcm <;>
      exact ⟨rfl, by simp [execute_plan_impl]⟩
  · intro hw hcc hcm
    rcases hp with h | h <;> subst h <;> subst hw <;> subst hcc <;> subst hcm <;> rfl

/-- C1, witness: the amended theorem applied at a concrete input
(writable, `Ok(Null)`, both storage calls succeeding). -/
theorem c1_execute_plan_impl_witness :
    execute_plan_impl true (.ok .null) none none
      = (.ok .null, [.lock, .completeChanges false, .commit]) :=
  (c1_execute_plan_impl_ok_return true .null none none (.ok .null)
    (Or.inl rfl)).2.2.2 rfl rfl rfl

/-- C2.  `check_set_start_limit` enables storage-level START/LIMIT only
when every post-storage reordering is absent or encoded by the iterator:
it returns false whenever the statement has a GROUP BY or there is not
exactly one iterable; with a WHERE condition it returns true only if the
single iterable is an `Index` iterator and the planner's query executor
reports that this index handles the condition (together with any ORDER BY,
per the planner contract); with an ORDER BY but no WHERE it returns true
only if the single iterable is an index whose natural order matches the
ORDER BY (`is_order`); with neither WHERE nor ORDER BY (no GROUP BY,
single iterable) it returns true. -/
theorem c2_check_set_start_limit (entries : List IterableM) (ctx : CtxM)
    (stm : StmtS) :
    (stm.group = true → check_set_start_limit entries ctx stm = false)
    ∧ (entries.length ≠ 1 → check_set_start_limit entries ctx stm = false)
    ∧ (∀ c, stm.cond = some c → check_set_start_limit entries ctx stm = true →
        ∃ t irf qp exe, entries = [.index t irf]
          ∧ ctx.get_query_planner = some qp
          ∧ qp.get_query_executor t = some exe
          ∧ exe.is_iterator_condition irf c = true)
    ∧ (stm.cond = none → stm.order = true →
        check_set_start_limit entries ctx stm = true →
        ∃ t irf qp, entries = [.index t irf]
          ∧ ctx.get_query_planner = some qp
          ∧ qp.is_order irf = true)
    ∧ (stm.group = false → entries.length = 1 → stm.cond = none →
        stm.order = false → check_set_start_limit entries ctx stm = true) := by
  refine ⟨?_, ?_, ?_, ?_, ?_⟩
  · intro hg
    simp [check_set_start_limit, hg]
  · intro hl
    by_cases hg : stm.group <;> simp [check_set_start_limit, hg, hl]
  · intro c hc ht
    by_cases hg : stm.group
    · simp [check_set_start_limit, hg] at ht
    by_cases hl : entries.length = 1
    case neg => simp [check_set_start_limit, hg, hl] at ht
    obtain ⟨a, ha⟩ := List.length_eq_one.mp hl
    subst ha
    cases a with
    | index t irf =>
      simp only [check_set_start_limit, hg, Bool.false_eq_true, if_false, hc,
        List.head?, List.length_singleton] at ht
      cases hqp : ctx.get_query_planner with
      | none => simp [hqp] at ht
      | some qp =>
        cases hexe : qp.get_query_executor t with
        | none => simp [hqp, hexe] at ht
        | some exe =>
          simp only [hqp, hexe] at ht
          exact ⟨t, irf, qp, exe, rfl, rfl, hexe, ht⟩
    | value v => simp [check_set_start_limit, hg, hc] at ht
    | defer v => simp [check_set_start_limit, hg, hc] at ht
    | yld v => simp [check_set_start_limit, hg, hc] at ht
    | thing v => simp [check_set_start_limit, hg, hc] at ht
    | edges v => simp [check_set_start_limit, hg, hc] at ht
    | table v => simp [check_set_start_limit, hg, hc] at ht
    | range v => simp [check_set_start_limit, hg, hc] at ht
    | mergeable v => simp [check_set_start_limit, hg, hc] at ht
    | relatable v => simp [check_set_start_limit, hg, hc] at ht
  · intro hc ho ht
    by_cases hg : stm.group
    · simp [check_set_start_limit, hg] at ht
    by_cases hl : entries.length = 1
    case neg => simp [check_set_start_limit, hg, hl] at ht
    obtain ⟨a, ha⟩ := List.length_eq_one.mp hl
    subst ha
    cases a with
    | index t irf =>
      simp only [check_set_start_limit, hg, Bool.false_eq_true, if_false, hc, ho,
        List.head?, List.length_singleton] at ht
      cases hqp : ctx.get_query_planner with
      | none => simp [hqp] at ht
      | some qp =>
        simp only [hqp] at ht
        exact ⟨t, irf, qp, rfl, rfl, ht⟩
    | value v => simp [check_set_start_limit, hg, hc, ho] at ht
    | defer v => simp [check_set_start_limit, hg, hc, ho] at ht
    | yld v => simp [check_set_start_limit, hg, hc, ho] at ht
    | thing v => simp [check_set_start_limit, hg, hc, ho] at ht
    | edges v => simp [check_set_start_limit, hg, hc, ho] at ht
    | table v => simp [check_set_start_limit, hg, hc, ho] at ht
    | range v => simp [check_set_start_limit, hg, hc, ho] at ht
    | mergeable v => simp [check_set_start_limit, hg, hc, ho] at ht
    | relatable v => simp [check_set_start_limit, hg, hc, ho] at ht
  · intro hg hl hc ho
    simp [check_set_start_limit, hg, hl, hc, ho]

/-- C2, witness: a single plain table iterable with no GROUP BY, WHERE, or
ORDER BY enables the push-down. -/
theorem c2_check_set_start_limit_witness :
    check_set_start_limit [.table "person"] ⟨none⟩ ⟨false, none, false⟩ = true :=
  (c2_check_set_start_limit [.table "person"] ⟨none⟩
    ⟨false, none, false⟩).2.2.2.2 rfl rfl rfl rfl

/-- C10.  Cloning an `Iterator` preserves `entries`, `limit` and `start`
but resets all run-transient state: the clone has no recorded error, an
empty results buffer, no guaranteed fallback, no `cancel_on_limit`, and its
`start_skip` counter is recomputed from `start` (kept `None` when it was
`None`).  Consequently the clone is fully determined by the persistent
fields, so errors or buffered rows of one pass cannot leak into another
pass run over a clone. -/
theorem c10_clone_resets_transient_state (it : IteratorSt) :
    (cloneIterator it).entries = it.entries
    ∧ (cloneIterator it).limit = it.limit
    ∧ (cloneIterator it).start = it.start
    ∧ (cloneIterator it).error = none
    ∧ (cloneIterator it).results = []
    ∧ (cloneIterator it).guaranteed = none
    ∧ (cloneIterator it).cancel_on_limit = none
    ∧ (cloneIterator it).start_skip
        = it.start_skip.map (fun _ => it.start.getD 0)
    ∧ ∀ it2 : IteratorSt, it2.run = it.run → it2.entries = it.entries →
        it2.limit = it.limit → it2.start = it.start →
        it2.start_skip.isSome = it.start_skip.isSome →
        cloneIterator it2 = cloneIterator it := by
  refine ⟨rfl, rfl, rfl, rfl, rfl, rfl, rfl, rfl, ?_⟩
  intro it2 hrun hent hlim hst hskip
  unfold cloneIterator
  simp only [hrun, hent, hlim, hst]
  congr 1
  cases h1 : it2.start_skip <;> cases h2 : it.start_skip <;>
    simp [h1, h2] at hskip ⊢

/-- C10, witness: a clone ignores the original's recorded error and
buffered rows. -/
theorem c10_clone_resets_transient_state_witness :
    cloneIterator ⟨7, some 5, some 2, some 2, some .queryNotExecuted,
        [.null], [.table "t"], some (.yld "t"), some 5⟩
      = cloneIterator ⟨7, some 5, some 2, some 1, none, [], [.table "t"],
        none, none⟩ :=
  (c10_clone_resets_transient_state
      ⟨7, some 5, some 2, some 1, none, [], [.table "t"], none, none⟩).2.2.2.2.2.2.2.2
    ⟨7, some 5, some 2, some 2, some .queryNotExecuted, [.null], [.table "t"],
      some (.yld "t"), some 5⟩
    rfl rfl rfl rfl rfl

/-- A planner granting full permission and adding one table-scan iterable. -/
def pl0 : PlannerP := ⟨fun _ => .full, fun t _ => [.table t]⟩

/-- A SELECT-shaped statement context marked ONLY. -/
def stc_only : StmCtx := ⟨true, false, false, true, false⟩

/-- A freshly created iterator with no LIMIT. -/
def it0 : IteratorSt := ⟨0, none, none, none, none, [], [], none, none⟩

/-- C5, counterexample.  The claim states that for every prepared target an
ONLY statement whose LIMIT is not known to be at most 1 fails with
`SingleOnlyOutput`.  At the concrete input (ONLY statement, no LIMIT,
`Table` target with full permission) `prepare` succeeds and ingests the
planner's iterables: `prepare_table` performs no ONLY check. -/
theorem c5_prepare_table_no_only_check :
    stc_only.is_only = true
    ∧ is_limit_one_or_zero it0 = false
    ∧ prepare pl0 stc_only it0 (.table "person")
        = .ok { it0 with entries := [.table "person"] } := by
  refine ⟨rfl, rfl, ?_⟩
  rfl

/-- C5, amended.  The `SingleOnlyOutput` enforcement applies to the targets
whose preparation can multiply records without a planner bound — `Mock`,
`Edges` and `Array` targets: for those, an ONLY statement whose LIMIT is
not known to be at most 1 fails with `SingleOnlyOutput`.  `Table` and
record-id (`Thing`) targets are prepared without this check and ingestion
proceeds. -/
theorem c5_single_only_enforcement (pl : PlannerP) (stc : StmCtx)
    (it : IteratorSt) (honly : stc.is_only = true)
    (hlim : is_limit_one_or_zero it = false) :
    (∀ m, prepare pl stc it (.mock m) = .error .singleOnlyOutput)
    ∧ (∀ e, prepare pl stc it (.edges e) = .error .singleOnlyOutput)
    ∧ (∀ xs, prepare pl stc it (.arr xs) = .error .singleOnlyOutput)
    ∧ (∀ t, ∃ it2, prepare pl stc it (.table t) = .ok it2)
    ∧ (∀ t, ∃ it2, prepare pl stc it (.thingT t) = .ok it2) := by
  refine ⟨?_, ?_, ?_, ?_, ?_⟩
  · intro m
    simp [prepare, prepare_mock, honly, hlim]
  · intro e
    simp [prepare, prepare_edges, honly, hlim]
  · intro xs
    simp [prepare, prepare_array, honly, hlim]
  · intro t
    simp only [prepare, prepare_table]
    split
    · exact ⟨it, rfl⟩
    · split
      · exact ⟨_, rfl⟩
      · split
        · exact ⟨_, rfl⟩
        · exact ⟨_, rfl⟩
  · intro t
    simp only [prepare, prepare_thing]
    split
    · exact ⟨it, rfl⟩
    · split
      · exact ⟨_, rfl⟩
      · exact ⟨_, rfl⟩

/-- C5, witness: an ONLY statement with no LIMIT fails on a `Mock` target. -/
theorem c5_single_only_enforcement_witness :
    prepare pl0 stc_only it0 (.mock [⟨"person", "one"⟩])
      = .error .singleOnlyOutput :=
  (c5_single_only_enforcement pl0 stc_only it0 rfl rfl).1 [⟨"person", "one"⟩]

/-- C6, counterexample.  The claim states that with
`cancel_on_limit = Some(l)` the buffer never holds more than `l` rows.  At
the concrete input `l = 0` with one accepted record, `Iterator::result`
pushes the record and then compares `results.len() == 0`, which is already
false, so the run is never cancelled and the buffer holds 1 > 0 rows. -/
theorem c6_limit_zero_overflows :
    (runResults (some 0) ⟨[], none, false⟩ [.okRec .null]).results.length = 1
    ∧ ¬ (runResults (some 0) ⟨[], none, false⟩
          [.okRec .null]).results.length ≤ 0 := by
  constructor
  · rfl
  · decide

/-- C6, amended.  Whenever storage-level push-down is in effect with
`cancel_on_limit = Some(l)` and `l ≥ 1`, the results buffer never holds
more than `l` rows: the invariant `results.len() ≤ l` (strengthened with
"the run is cancelled once the length reaches `l`") is preserved by every
call to `Iterator::result` in a record-driving run, because the run is
cancelled as soon as the buffer length reaches `l` after an accepted
record. -/
theorem c6_results_bounded (l : Nat) (hl : 1 ≤ l) (rs : List ResIn)
    (st : RunSt) (hlen : st.results.length ≤ l)
    (hcap : st.results.length = l → st.cancelled = true) :
    (runResults (some l) st rs).results.length ≤ l := by
  induction rs generalizing st with
  | nil => simpa [runResults] using hlen
  | cons r rs ih =>
    by_cases hc : st.cancelled
    · simpa [runResults, hc] using hlen
    · have hlt : st.results.length < l := by
        rcases Nat.lt_or_ge st.results.length l with h | h
        · exact h
        · have : st.results.length = l := Nat.le_antisymm hlen h
          exact absurd (hcap this) (by simp [hc])
      rw [runResults]
      simp only [hc, if_false, Bool.false_eq_true]
      cases r with
      | ignore =>
        exact ih st hlen hcap
      | errRec e =>
        exact ih _ (by simpa [resultStep] using hlen) (by simp [resultStep])
      | okRec v =>
        have hlen2 : (st.results ++ [v]).length = st.results.length + 1 := by
          simp
        by_cases hfull : st.results.length + 1 = l
        · refine ih _ ?_ ?_ <;> simp [resultStep, hlen2, hfull]
        · refine ih _ ?_ ?_ <;> simp [resultStep, hlen2, hfull] <;> omega
    
/-- C6, witness: a run over two accepted records with `l = 1` keeps the
buffer at one row. -/
theorem c6_results_bounded_witness :
    (runResults (some 1) ⟨[], none, false⟩
        [.okRec .null, .okRec .vnone]).results.length ≤ 1 :=
  c6_results_bounded 1 (by decide) [.okRec .null, .okRec .vnone]
    ⟨[], none, false⟩ (by simp) (by simp)

/-- Once the run has been cancelled, no further record is delivered. -/
theorem runResults_cancelled (l : Option Nat) (st : RunSt)
    (h : st.cancelled = true) (rs : List ResIn) :
    runResults l st rs = st := by
  cases rs with
  | nil => rfl
  | cons r rs => simp [runResults, h]

/-- Without `cancel_on_limit`, every accepted record is buffered. -/
theorem runResults_none (xs : List ValueM) :
    ∀ (acc : List ValueM) (e : Option ErrE),
      (runResults none ⟨acc, e, false⟩ (xs.map .okRec)).results = acc ++ xs := by
  induction xs with
  | nil => intro acc e; simp [runResults]
  | cons x xs ih =>
    intro acc e
    simp only [List.map_cons, runResults, Bool.false_eq_true, if_false,
      resultStep]
    rw [ih (acc ++ [x]) e]
    simp

/-- With `cancel_on_limit = Some(0)` the equality check `len == 0` never
fires after a push, so every accepted record is buffered. -/
theorem runResults_zero (xs : List ValueM) :
    ∀ (acc : List ValueM) (e : Option ErrE),
      (runResults (some 0) ⟨acc, e, false⟩ (xs.map .okRec)).results
        = acc ++ xs := by
  induction xs with
  | nil => intro acc e; simp [runResults]
  | cons x xs ih =>
    intro acc e
    simp only [List.map_cons, runResults, Bool.false_eq_true, if_false,
      resultStep]
    have hne : ¬ (acc ++ [x]).length = 0 := by simp
    simp only [hne, if_false]
    rw [ih (acc ++ [x]) e]
    simp

/-- With `cancel_on_limit = Some(l)`, `l ≥ 1`, a run starting below the
limit buffers exactly the records up to the limit, in order. -/
theorem runResults_take (l : Nat) (hl : 1 ≤ l) (xs : List ValueM) :
    ∀ (acc : List ValueM) (e : Option ErrE), acc.length < l →
      (runResults (some l) ⟨acc, e, false⟩ (xs.map .okRec)).results
        = acc ++ xs.take (l - acc.length) := by
  induction xs with
  | nil => intro acc e hacc; simp [runResults]
  | cons x xs ih =>
    intro acc e hacc
    simp only [List.map_cons, runResults, Bool.false_eq_true, if_false,
      resultStep]
    by_cases hfull : (acc ++ [x]).length = l
    · simp only [hfull, if_pos]
      rw [runResults_cancelled _ _ rfl]
      have h1 : l - acc.length = 1 := by
        simp at hfull
        omega
      rw [h1]
      simp
    · simp only [hfull, if_false]
      have hlt : (acc ++ [x]).length < l := by
        simp at hfull ⊢
        omega
      rw [ih (acc ++ [x]) e hlt]
      have h2 : l - acc.length = (l - (acc ++ [x]).length) + 1 := by
        simp at hfull ⊢
        omega
      rw [h2, List.take_succ_cons]
      simp

/-- `runAccepted` without a limit is the identity. -/
theorem runAccepted_none (xs : List ValueM) : runAccepted none xs = xs := by
  simpa using runResults_none xs [] none

/-- `runAccepted` with limit 0 never cancels. -/
theorem runAccepted_zero (xs : List ValueM) :
    runAccepted (some 0) xs = xs := by
  simpa using runResults_zero xs [] none

/-- `runAccepted` with a positive limit takes a prefix. -/
theorem runAccepted_take (l : Nat) (hl : 1 ≤ l) (xs : List ValueM) :
    runAccepted (some l) xs = xs.take l := by
  have := runResults_take l hl xs [] none (by simpa using hl)
  simpa using this

/-- C7.  For every statement on which `check_set_start_limit` returns true,
running the pipeline with storage-level push-down (START consumed at the
storage level, iteration cancelled at `cancel_on_limit`, then
`Results::start_limit` applied with the remaining skip counter) produces
exactly the same final rows, in the same order, as running without
push-down and applying START and LIMIT only post-hoc. -/
theorem c7_pushdown_equivalence (entries : List IterableM) (ctx : CtxM)
    (stm : StmtS) (hcheck : check_set_start_limit entries ctx stm = true)
    (records : List ValueM) (start limit : Option Nat) :
    pipelineWithPushdown records start limit
      = pipelineNoPushdown records start limit := by
  clear hcheck
  unfold pipelineWithPushdown pipelineNoPushdown
  rw [runAccepted_none]
  by_cases hs : start.getD 0 > 0
  · simp only [hs, if_pos]
    rcases le_or_lt (start.getD 0) records.length with hle | hgt
    · have hmin : min (start.getD 0) records.length = start.getD 0 :=
        Nat.min_eq_left hle
      rw [hmin, Nat.sub_self]
      cases limit with
      | none =>
        rw [runAccepted_none]
        simp [results_start_limit]
      | some l =>
        cases l with
        | zero =>
          rw [runAccepted_zero]
          simp [results_start_limit]
        | succ k =>
          rw [runAccepted_take (k + 1) (Nat.succ_le_succ (Nat.zero_le k))]
          simp only [results_start_limit, List.drop_zero]
          rw [List.take_take, Nat.min_self]
    · have hnil : records.drop (start.getD 0) = [] :=
        List.drop_eq_nil_of_le (Nat.le_of_lt hgt)
      rw [hnil]
      cases limit with
      | none =>
        rw [runAccepted_none]
        simp only [results_start_limit]
        rw [List.drop_nil, ← hnil]
      | some l =>
        cases l with
        | zero =>
          rw [runAccepted_zero]
          simp [results_start_limit]
        | succ k =>
          rw [runAccepted_take (k + 1) (Nat.succ_le_succ (Nat.zero_le k))]
          simp [results_start_limit, hnil]
  · simp only [hs, if_neg, ite_false]
    have hz : start.getD 0 = 0 := by omega
    cases limit with
    | none =>
      rw [runAccepted_none]
    | some l =>
      cases l with
      | zero =>
        rw [runAccepted_zero]
      | succ k =>
        rw [runAccepted_take (k + 1) (Nat.succ_le_succ (Nat.zero_le k))]
        simp only [results_start_limit, hz, List.drop_zero]
        rw [List.take_take, Nat.min_self]

/-- C7, witness: the equivalence at a concrete push-down-enabled statement,
four records, START 1 and LIMIT 2. -/
theorem c7_pushdown_equivalence_witness :
    pipelineWithPushdown [.number 1, .number 2, .number 3, .number 4]
        (some 1) (some 2)
      = pipelineNoPushdown [.number 1, .number 2, .number 3, .number 4]
        (some 1) (some 2) :=
  c7_pushdown_equivalence [.table "person"] ⟨none⟩ ⟨false, none, false⟩
    (by rfl) [.number 1, .number 2, .number 3, .number 4] (some 1) (some 2)

/-- Fast-forwarding emits one `QueryNotExecuted` response per statement up
to the first CANCEL or COMMIT, regardless of statement content. -/
theorem fastForwardNE_append (ss1 : List StmtE) (t : StmtE) (ss2 : List StmtE)
    (h1 : ∀ x ∈ ss1, isCancelOrCommit x = false)
    (h2 : isCancelOrCommit t = true) :
    fastForwardNE (ss1 ++ t :: ss2) = ss1.map (fun _ => neResp) := by
  induction ss1 with
  | nil => simp [fastForwardNE, h2]
  | cons s ss ih =>
    have hs : isCancelOrCommit s = false := h1 s (by simp)
    simp only [List.cons_append, fastForwardNE, hs, Bool.false_eq_true,
      if_false, List.map_cons, List.append_eq]
    rw [ih (fun x hx => h1 x (by simp [hx]))]

/-- In skip-remaining mode the loop consumes every statement other than
CANCEL/COMMIT without touching the results or the transaction. -/
theorem beginLoop_skip_consumes (cc cm : Option String) (startRes acc : List Resp)
    (mid : List StmtE) (h : ∀ x ∈ mid, isCancelOrCommit x = false)
    (rest : List StmtE) :
    beginLoop cc cm startRes acc true (mid ++ rest)
      = beginLoop cc cm startRes acc true rest := by
  induction mid with
  | nil => rfl
  | cons s ss ih =>
    have hs : isCancelOrCommit s = false := h s (by simp)
    simp only [List.cons_append, beginLoop, hs, Bool.not_false, Bool.and_true,
      if_true]
    exact ih (fun x hx => h x (by simp [hx]))

/-- C3.  Inside a transaction block, when a data statement's execution
returns an error: every response already pushed for earlier statements of
the block is rewritten to `QueryNotExecuted`, a response carrying the
failing statement's own error is pushed, the open transaction is cancelled
(the only transaction action of the run), and every subsequent statement up
to the next CANCEL or COMMIT produces a `QueryNotExecuted` response without
being executed (its response is independent of its content). -/
theorem c3_data_error_poisons_block (cc cm : Option String)
    (startRes acc : List Resp) (e : ErrE) (ss1 : List StmtE) (t : StmtE)
    (ss2 : List StmtE) (h1 : ∀ x ∈ ss1, isCancelOrCommit x = false)
    (h2 : isCancelOrCommit t = true) :
    beginLoop cc cm startRes acc false (.other (.err e) :: (ss1 ++ t :: ss2))
      = (startRes ++ acc.map (fun _ => neResp)
          ++ [⟨.error e, .other⟩] ++ ss1.map (fun _ => neResp),
        [.cancel]) := by
  simp only [beginLoop, Bool.false_and, Bool.false_eq_true, if_false]
  rw [fastForwardNE_append ss1 t ss2 h1 h2]

/-- C3, witness: the block `BEGIN; CREATE ok; CREATE dup(error); CREATE
skipped; COMMIT` rewrites the first response, pushes the duplicate error,
cancels, and fast-forwards the third statement. -/
theorem c3_data_error_poisons_block_witness :
    beginLoop none none [] [⟨.ok .null, .other⟩] false
        (.other (.err (.otherErr "duplicate")) ::
          ([.other (.ok .null)] ++ .commit :: []))
      = ([neResp, ⟨.error (.otherErr "duplicate"), .other⟩, neResp],
        [.cancel]) := by
  have := c3_data_error_poisons_block none none [] [⟨.ok .null, .other⟩]
    (.otherErr "duplicate") [.other (.ok .null)] .commit []
    (by intro x hx; simp at hx; subst hx; rfl) rfl
  simpa using this

/-- C4.  Inside a transaction block, when a RETURN-producing statement
succeeds, the executor sets `skip_remaining`, truncates the results back to
the block start before pushing the return value's response, and skips every
later statement of the block other than CANCEL/COMMIT; a successfully
committed block containing RETURN therefore contributes exactly one Ok
response holding the returned value. -/
theorem c4_return_truncates_block (startRes acc : List Resp) (v : ValueM)
    (mid : List StmtE) (h : ∀ x ∈ mid, isCancelOrCommit x = false)
    (ss2 : List StmtE) :
    beginLoop none none startRes acc false
        (.output (.ok v) :: (mid ++ .commit :: ss2))
      = (startRes ++ [⟨.ok v, .other⟩],
        [.lock, .completeChanges false, .commit]) := by
  simp only [beginLoop, Bool.false_and, Bool.false_eq_true, if_false]
  rw [beginLoop_skip_consumes none none startRes [⟨.ok v, .other⟩] mid h
    (.commit :: ss2)]
  rfl

/-- C4, witness: the stream `BEGIN; CREATE a1; RETURN 42; CREATE a2;
COMMIT` collapses to the single response `Ok(42)` and the transaction
commits. -/
theorem c4_return_truncates_block_witness :
    beginLoop none none [] [] false
        (.other (.ok (.thing "a" "1")) ::
          .output (.ok (.number 42)) ::
          ([.other (.ok (.thing "a" "2"))] ++ .commit :: []))
      = ([⟨.ok (.number 42), .other⟩],
        [.lock, .completeChanges false, .commit]) := by
  have := c4_return_truncates_block [] [⟨.ok (.thing "a" "1"), .other⟩]
    (.number 42) [.other (.ok (.thing "a" "2"))]
    (by intro x hx; simp at hx; subst hx; rfl) []
  simpa [beginLoop] using this

/-- The embedding of the method call `v.pick(path)`: the receiver is taken
by shared reference (`&self`) in the source, so the call returns the pair
(unchanged receiver, picked value). -/
def pickCall (v : ValueM) (p : List PartM) : ValueM × ValueM := (v, pick v p)

/-- C9.  For every value and every path, `pick` leaves the receiver
unchanged (the `&self` method mutates nothing), and on the empty path it
returns a value structurally equal to the receiver itself. -/
theorem c9_pick_pure_and_nil (v : ValueM) (p : List PartM) :
    (pickCall v p).1 = v ∧ pick v [] = v :=
  ⟨rfl, pick_nil v⟩

/-- Storing through a present key stores through its value. -/
theorem olookup_putObj {fs : List (String × ValueM)} {f : String} {u : ValueM}
    (h : olookup fs f = some u) (ps : List PartM) (w : ValueM) :
    olookup (putObj fs f ps w) f = some (put u ps w) := by
  induction fs with
  | nil => simp [olookup] at h
  | cons kv fs ih =>
    obtain ⟨k, x⟩ := kv
    by_cases hk : k = f
    · simp only [olookup, hk, if_pos] at h
      cases h
      simp [putObj, hk, olookup]
    · simp only [olookup, hk, if_neg, ite_false] at h
      simp [putObj, hk, olookup, ih h]

/-- Storing twice through a present key collapses when storing twice
through its value collapses. -/
theorem putObj_putObj {fs : List (String × ValueM)} {f : String} {u : ValueM}
    (h : olookup fs f = some u) (ps : List PartM) (w1 w2 : ValueM)
    (helem : put (put u ps w1) ps w2 = put u ps w2) :
    putObj (putObj fs f ps w1) f ps w2 = putObj fs f ps w2 := by
  induction fs with
  | nil => simp [olookup] at h
  | cons kv fs ih =>
    obtain ⟨k, x⟩ := kv
    by_cases hk : k = f
    · simp only [olookup, hk, if_pos] at h
      cases h
      simp [putObj, hk, helem]
    · simp only [olookup, hk, if_neg, ite_false] at h
      simp [putObj, hk, ih h]

/-- Storing through the first element stores through the head. -/
theorem head?_putFirst {xs : List ValueM} {u : ValueM}
    (h : xs.head? = some u) (ps : List PartM) (w : ValueM) :
    (putFirst xs ps w).head? = some (put u ps w) := by
  cases xs with
  | nil => simp at h
  | cons x xs =>
    simp only [List.head?] at h
    cases h
    simp [putFirst]

theorem putFirst_putFirst {xs : List ValueM} {u : ValueM}
    (h : xs.head? = some u) (ps : List PartM) (w1 w2 : ValueM)
    (helem : put (put u ps w1) ps w2 = put u ps w2) :
    putFirst (putFirst xs ps w1) ps w2 = putFirst xs ps w2 := by
  cases xs with
  | nil => simp at h
  | cons x xs =>
    simp only [List.head?] at h
    cases h
    simp [putFirst, helem]

/-- Storing through the last element stores through the last. -/
theorem getLast?_putLast {xs : List ValueM} {u : ValueM}
    (h : xs.getLast? = some u) (ps : List PartM) (w : ValueM) :
    (putLast xs ps w).getLast? = some (put u ps w) := by
  induction xs with
  | nil => simp at h
  | cons x xs ih =>
    cases xs with
    | nil =>
      simp only [List.getLast?_singleton] at h
      cases h
      simp [putLast]
    | cons y ys =>
      rw [List.getLast?_cons_cons] at h
      have hrec := ih h
      simp only [putLast]
      cases hpl : putLast (y :: ys) ps w with
      | nil => cases ys <;> simp [putLast] at hpl
      | cons z zs =>
        rw [hpl] at hrec
        rw [List.getLast?_cons_cons]
        exact hrec

theorem putLast_putLast {xs : List ValueM} {u : ValueM}
    (h : xs.getLast? = some u) (ps : List PartM) (w1 w2 : ValueM)
    (helem : put (put u ps w1) ps w2 = put u ps w2) :
    putLast (putLast xs ps w1) ps w2 = putLast xs ps w2 := by
  induction xs with
  | nil => simp at h
  | cons x xs ih =>
    cases xs with
    | nil =>
      simp only [List.getLast?_singleton] at h
      cases h
      simp [putLast, helem]
    | cons y ys =>
      rw [List.getLast?_cons_cons] at h
      have := ih h
      simp only [putLast]
      cases hpl : putLast (y :: ys) ps w1 with
      | nil => cases ys <;> simp [putLast] at hpl
      | cons z zs =>
        rw [hpl] at this
        simp only [putLast] at this ⊢
        cases zs with
        | nil => simpa [putLast] using this
        | cons z2 zs2 => simpa [putLast] using this

/-- Storing through position `i` stores through the `i`-th element. -/
theorem get?_putNth {xs : List ValueM} {i : Nat} {u : ValueM}
    (h : xs.get? i = some u) (ps : List PartM) (w : ValueM) :
    (putNth xs i ps w).get? i = some (put u ps w) := by
  induction xs generalizing i with
  | nil => simp at h
  | cons x xs ih =>
    cases i with
    | zero =>
      simp only [List.get?] at h
      cases h
      simp [putNth]
    | succ n =>
      simp only [List.get?] at h
      simp only [putNth]
      simpa using ih h

theorem putNth_putNth {xs : List ValueM} {i : Nat} {u : ValueM}
    (h : xs.get? i = some u) (ps : List PartM) (w1 w2 : ValueM)
    (helem : put (put u ps w1) ps w2 = put u ps w2) :
    putNth (putNth xs i ps w1) i ps w2 = putNth xs i ps w2 := by
  induction xs generalizing i with
  | nil => simp at h
  | cons x xs ih =>
    cases i with
    | zero =>
      simp only [List.get?] at h
      cases h
      simp [putNth, helem]
    | succ n =>
      simp only [List.get?] at h
      simp [putNth, ih h]

/-- Evaluation: object `Field` with a present key. -/
theorem pick_object_field_some {fs : List (String × ValueM)} {f : String}
    {u : ValueM} (holk : olookup fs f = some u) (ps : List PartM) :
    pick (.object fs) (.field f :: ps) = pick u ps := by
  simp only [pick]
  split
  · rename_i v hv
    rw [holk] at hv
    cases hv
    rfl
  · rename_i hv
    rw [holk] at hv
    cases hv

/-- Evaluation: object `Field` with a missing key. -/
theorem pick_object_field_none {fs : List (String × ValueM)} {f : String}
    (holk : olookup fs f = none) (ps : List PartM) :
    pick (.object fs) (.field f :: ps) = .vnone := by
  simp only [pick]
  split
  · rename_i v hv
    rw [holk] at hv
    cases hv
  · rfl

/-- Evaluation: object `Index` with a present decimal key. -/
theorem pick_object_index_some {fs : List (String × ValueM)} {i : Nat}
    {u : ValueM} (holk : olookup fs (toString i) = some u) (ps : List PartM) :
    pick (.object fs) (.index i :: ps) = pick u ps := by
  simp only [pick]
  split
  · rename_i v hv
    rw [holk] at hv
    cases hv
    rfl
  · rename_i hv
    rw [holk] at hv
    cases hv

/-- Evaluation: object `Index` with a missing decimal key. -/
theorem pick_object_index_none {fs : List (String × ValueM)} {i : Nat}
    (holk : olookup fs (toString i) = none) (ps : List PartM) :
    pick (.object fs) (.index i :: ps) = .vnone := by
  simp only [pick]
  split
  · rename_i v hv
    rw [holk] at hv
    cases hv
  · rfl

/-- Evaluation: array `First` with a non-empty array. -/
theorem pick_array_first_some {xs : List ValueM} {u : ValueM}
    (hh : xs.head? = some u) (ps : List PartM) :
    pick (.array xs) (.first :: ps) = pick u ps := by
  simp only [pick]
  split
  · rename_i v hv
    rw [hh] at hv
    cases hv
    rfl
  · rename_i hv
    rw [hh] at hv
    cases hv

/-- Evaluation: array `First` with an empty array. -/
theorem pick_array_first_none {xs : List ValueM}
    (hh : xs.head? = none) (ps : List PartM) :
    pick (.array xs) (.first :: ps) = .vnone := by
  simp only [pick]
  split
  · rename_i v hv
    rw [hh] at hv
    cases hv
  · rfl

/-- Evaluation: array `Last` with a non-empty array. -/
theorem pick_array_last_some {xs : List ValueM} {u : ValueM}
    (hh : xs.getLast? = some u) (ps : List PartM) :
    pick (.array xs) (.last :: ps) = pick u ps := by
  simp only [pick]
  split
  · rename_i v hv
    rw [hh] at hv
    cases hv
    rfl
  · rename_i hv
    rw [hh] at hv
    cases hv

/-- Evaluation: array `Last` with an empty array. -/
theorem pick_array_last_none {xs : List ValueM}
    (hh : xs.getLast? = none) (ps : List PartM) :
    pick (.array xs) (.last :: ps) = .vnone := by
  simp only [pick]
  split
  · rename_i v hv
    rw [hh] at hv
    cases hv
  · rfl

/-- Evaluation: array `Index` in range. -/
theorem pick_array_index_some {xs : List ValueM} {i : Nat} {u : ValueM}
    (hh : xs.get? i = some u) (ps : List PartM) :
    pick (.array xs) (.index i :: ps) = pick u ps := by
  simp only [pick]
  split
  · rename_i v hv
    rw [hh] at hv
    cases hv
    rfl
  · rename_i hv
    rw [hh] at hv
    cases hv

/-- Evaluation: array `Index` out of range. -/
theorem pick_array_index_none {xs : List ValueM} {i : Nat}
    (hh : xs.get? i = none) (ps : List PartM) :
    pick (.array xs) (.index i :: ps) = .vnone := by
  simp only [pick]
  split
  · rename_i v hv
    rw [hh] at hv
    cases hv
  · rfl

/-- Reading back a value stored along a path that currently holds a number
returns exactly the stored value. -/
theorem pick_put_number (p : List PartM) :
    ∀ (v : ValueM) (n : Int) (w : ValueM), pick v p = .number n →
      pick (put v p w) p = w := by
  induction p with
  | nil =>
    intro v n w _
    rw [put_nil, pick_nil]
  | cons part ps ih =>
    intro v n w h
    cases v with
    | vnone => simp [pick] at h
    | null => simp [pick] at h
    | bool b => simp [pick] at h
    | number m => simp [pick] at h
    | str s => simp [pick] at h
    | thing tb id => simp [pick] at h
    | object fs =>
      cases part with
      | field f =>
        cases holk : olookup fs f with
        | none => rw [pick_object_field_none holk] at h; exact absurd h (by simp)
        | some u =>
          rw [pick_object_field_some holk] at h
          simp only [put]
          rw [pick_object_field_some (olookup_putObj holk ps w) ps]
          exact ih u n w h
      | index i =>
        cases holk : olookup fs (toString i) with
        | none => rw [pick_object_index_none holk] at h; exact absurd h (by simp)
        | some u =>
          rw [pick_object_index_some holk] at h
          simp only [put]
          rw [pick_object_index_some (olookup_putObj holk ps w) ps]
          exact ih u n w h
      | all => simp [pick] at h
      | first => simp [pick] at h
      | last => simp [pick] at h
    | array xs =>
      cases part with
      | field f => simp [pick] at h
      | all => simp [pick] at h
      | first =>
        cases hh : xs.head? with
        | none => rw [pick_array_first_none hh] at h; exact absurd h (by simp)
        | some u =>
          rw [pick_array_first_some hh] at h
          simp only [put]
          rw [pick_array_first_some (head?_putFirst hh ps w) ps]
          exact ih u n w h
      | last =>
        cases hh : xs.getLast? with
        | none => rw [pick_array_last_none hh] at h; exact absurd h (by simp)
        | some u =>
          rw [pick_array_last_some hh] at h
          simp only [put]
          rw [pick_array_last_some (getLast?_putLast hh ps w) ps]
          exact ih u n w h
      | index i =>
        cases hh : xs.get? i with
        | none => rw [pick_array_index_none hh] at h; exact absurd h (by simp)
        | some u =>
          rw [pick_array_index_some hh] at h
          simp only [put]
          rw [pick_array_index_some (get?_putNth hh ps w) ps]
          exact ih u n w h

/-- Storing twice along a path that currently holds a number is the same as
storing the second value once. -/
theorem put_put_number (p : List PartM) :
    ∀ (v : ValueM) (n : Int) (w1 w2 : ValueM), pick v p = .number n →
      put (put v p w1) p w2 = put v p w2 := by
  induction p with
  | nil =>
    intro v n w1 w2 _
    rw [put_nil, put_nil]
  | cons part ps ih =>
    intro v n w1 w2 h
    cases v with
    | vnone => simp [pick] at h
    | null => simp [pick] at h
    | bool b => simp [pick] at h
    | number m => simp [pick] at h
    | str s => simp [pick] at h
    | thing tb id => simp [pick] at h
    | object fs =>
      cases part with
      | field f =>
        cases holk : olookup fs f with
        | none => rw [pick_object_field_none holk] at h; exact absurd h (by simp)
        | some u =>
          rw [pick_object_field_some holk] at h
          simp only [put]
          rw [putObj_putObj holk ps w1 w2 (ih u n w1 w2 h)]
      | index i =>
        cases holk : olookup fs (toString i) with
        | none => rw [pick_object_index_none holk] at h; exact absurd h (by simp)
        | some u =>
          rw [pick_object_index_some holk] at h
          simp only [put]
          rw [putObj_putObj holk ps w1 w2 (ih u n w1 w2 h)]
      | all => simp [pick] at h
      | first => simp [pick] at h
      | last => simp [pick] at h
    | array xs =>
      cases part with
      | field f => simp [pick] at h
      | all => simp [pick] at h
      | first =>
        cases hh : xs.head? with
        | none => rw [pick_array_first_none hh] at h; exact absurd h (by simp)
        | some u =>
          rw [pick_array_first_some hh] at h
          simp only [put]
          rw [putFirst_putFirst hh ps w1 w2 (ih u n w1 w2 h)]
      | last =>
        cases hh : xs.getLast? with
        | none => rw [pick_array_last_none hh] at h; exact absurd h (by simp)
        | some u =>
          rw [pick_array_last_some hh] at h
          simp only [put]
          rw [putLast_putLast hh ps w1 w2 (ih u n w1 w2 h)]
      | index i =>
        cases hh : xs.get? i with
        | none => rw [pick_array_index_none hh] at h; exact absurd h (by simp)
        | some u =>
          rw [pick_array_index_some hh] at h
          simp only [put]
          rw [putNth_putNth hh ps w1 w2 (ih u n w1 w2 h)]

/-- C8.  For every value holding a number at path `p` and all number
arguments `a` and `b`, performing `inc(p, a)` followed by `inc(p, b)`
yields the same value as performing `inc(p, a + b)` once. -/
theorem c8_inc_additive (v : ValueM) (p : List PartM) (n a b : Int)
    (h : pick v p = .number n) :
    inc (inc v p (.number a)) p (.number b) = inc v p (.number (a + b)) := by
  have h1 : inc v p (.number a) = put v p (.number (n + a)) := by
    rw [inc, h]
  have h2 : pick (put v p (.number (n + a))) p = .number (n + a) :=
    pick_put_number p v n (.number (n + a)) h
  have h3 : inc (put v p (.number (n + a))) p (.number b)
      = put (put v p (.number (n + a))) p (.number ((n + a) + b)) := by
    rw [inc, h2]
  have h4 : inc v p (.number (a + b)) = put v p (.number (n + (a + b))) := by
    rw [inc, h]
  rw [h1, h3, h4, put_put_number p v n (.number (n + a)) (.number ((n + a) + b)) h,
    Int.add_assoc]

/-- C8, witness: incrementing `{ test: 100 }` at `test` by 10 and then by 5
equals incrementing once by 15. -/
theorem c8_inc_additive_witness :
    inc (inc (.object [("test", .number 100)]) [.field "test"] (.number 10))
        [.field "test"] (.number 5)
      = inc (.object [("test", .number 100)]) [.field "test"] (.number 15) := by
  have := c8_inc_additive (.object [("test", .number 100)]) [.field "test"]
    100 10 5 (by simp [pick, olookup])
  simpa using this
